import Mathlib

/-!
Verification of the tfjs-mnist training pipeline against its specification.

The development shallowly embeds the two source files:
* `src/model.ts` — the convolutional model builder `createConvModel`;
* `src/unnamed/part_000` — the training orchestration (`train`,
  `showPredictions`) built around the `model.fit` callback loop.

Machine numbers are modelled exactly: sizes and indices as `ℕ`, fractions
(validation split, reported completion, accuracies) as `ℚ`.  The JavaScript
value `undefined` (and the `NaN` produced by arithmetic on it) is modelled by
`none : Option ℚ`.
-/

namespace TfjsMnist

/-! ### Model builder (src/model.ts) -/

/-- Activation kinds used by the layers of this model. -/
inductive Activation where
  | relu
  | softmax
deriving DecidableEq

/-- Layer specifications, carrying exactly the configuration fields that
`src/model.ts` passes to the layer constructors.  `conv2d` keeps its optional
declared `inputShape` because the source declares one on both convolutions. -/
inductive Layer where
  | conv2d (inputShape : Option (List ℕ)) (kernelSize : ℕ) (filters : ℕ)
      (activation : Activation)
  | maxPooling2d (poolSize : ℕ) (strides : ℕ)
  | flatten
  | dense (units : ℕ) (activation : Activation)
  | dropout (rate : ℚ)
deriving DecidableEq

/-- The class count of the dataset (MNIST digits).  The final dense layer in
`src/model.ts` hardcodes it as `units: 10`. -/
def numClasses : ℕ := 10

/-- Translated from `createConvModel` in `src/model.ts`.  `IMAGE_H` and
`IMAGE_W` are imported there from the data module (not under `src/`), so they
appear here as parameters.  The second `conv2d` repeats the `inputShape`
declaration `[IMAGE_H, IMAGE_W, 1]` exactly as the source does. -/
def createConvModel (IMAGE_H IMAGE_W : ℕ) : List Layer :=
  [ Layer.conv2d (some [IMAGE_H, IMAGE_W, 1]) 5 32 Activation.relu
  , Layer.maxPooling2d 2 2
  , Layer.conv2d (some [IMAGE_H, IMAGE_W, 1]) 5 64 Activation.relu
  , Layer.maxPooling2d 2 2
  , Layer.flatten
  , Layer.dense 128 Activation.relu
  , Layer.dropout (1 / 10)
  , Layer.dense numClasses Activation.softmax ]

/-- Tensor shapes flowing between layers (batch dimension elided). -/
inductive Shape where
  | img (h w c : ℕ)
  | vec (n : ℕ)
  | invalid
deriving DecidableEq

/-- Output shape of a single layer given its actual input shape, following the
layers API defaults (`'valid'` padding for convolution and pooling).  The
declared `inputShape` of a `conv2d` plays no role here: in a sequential model
a non-first layer is built from the previous layer's output. -/
def applyLayer : Shape → Layer → Shape
  | Shape.img h w _, Layer.conv2d _ k f _ => Shape.img (h - k + 1) (w - k + 1) f
  | Shape.img h w c, Layer.maxPooling2d p s =>
      Shape.img ((h - p) / s + 1) ((w - p) / s + 1) c
  | Shape.img h w c, Layer.flatten => Shape.vec (h * w * c)
  | Shape.vec _, Layer.dense u _ => Shape.vec u
  | sh, Layer.dropout _ => sh
  | _, _ => Shape.invalid

/-- The input shapes successively received by each layer of a stack whose
first layer receives `s`. -/
def inputShapesFrom (s : Shape) : List Layer → List Shape
  | [] => []
  | l :: ls => s :: inputShapesFrom (applyLayer s l) ls

/-- The shape a layer declares via its `inputShape` configuration field, when
it declares one. -/
def declaredShape : Layer → Option Shape
  | Layer.conv2d (some [h, w, c]) _ _ _ => some (Shape.img h w c)
  | _ => none

/-- Sequential-model shape inference: the first layer is built from its
declared `inputShape`; every later layer is built from the previous layer's
output, its own `inputShape` declaration (if any) being ignored. -/
def sequentialInputShapes (ls : List Layer) : List Shape :=
  match ls with
  | [] => []
  | l :: _ =>
    match declaredShape l with
    | some s => inputShapesFrom s ls
    | none => []

/-- Channel count of an image shape. -/
def Shape.channels : Shape → ℕ
  | Shape.img _ _ c => c
  | _ => 0

/-- Output channel count (filters) of a layer, `0` when not applicable. -/
def outChannels : Layer → ℕ
  | Layer.conv2d _ _ f _ => f
  | _ => 0

/-! ### Trainer (src/unnamed/part_000)

`train` compiles the model and calls `model.fit` with `onBatchEnd` and
`onEpochEnd` callbacks.  The fit loop itself belongs to the external tensor
library; its split/batch/callback protocol is modelled from the spec
(last `round(N·validationSplit)` examples held out, the complementary
prefix batched into groups of `batchSize` with a smaller final batch,
per-batch and per-epoch callbacks).  The repository code inside the
callbacks — counter, status/plot emissions, hook gating, `tf.nextFrame()`
yields — is translated line by line. -/

/-- Batch-size hyperparameter fixed inside `train`. -/
def batchSize : ℕ := 320

/-- Validation-split hyperparameter fixed inside `train`. -/
def validationSplit : ℚ := 15 / 100

/-- Modelled from the spec: the validation slice is the last
`round(N * validationSplit)` examples, so the training slice is the
complementary prefix. -/
def trainSliceSize (N : ℕ) (vs : ℚ) : ℕ :=
  N - (round ((N : ℚ) * vs)).toNat

/-- Ceiling division on naturals: number of `b`-sized batches covering `m`
examples, the last batch possibly smaller. -/
def numBatches (m b : ℕ) : ℕ := (m + b - 1) / b

/-- Translated from `train`: the expected total batch count,
`Math.ceil((N * (1 - validationSplit)) / batchSize) * trainEpochs`. -/
def totalNumBatches (N b : ℕ) (vs : ℚ) (epochs : ℕ) : ℤ :=
  ⌈(N : ℚ) * (1 - vs) / (b : ℚ)⌉ * epochs

/-- Observable steps of a training run.  `batchEnd` and `epochEnd` are the
progress events (the status/plot emissions of the corresponding callback);
`batchHook`/`epochHook` are the `onIteration` invocations; `yield` is the
`await tf.nextFrame()` handing control back to the host scheduler. -/
inductive Event where
  | batchCompute (epoch batch : ℕ)
  | batchEnd (epoch batch : ℕ) (fraction : ℚ)
  | batchHook (batch : ℕ)
  | valCompute (epoch : ℕ)
  | epochEnd (epoch : ℕ) (valAcc : ℚ)
  | epochHook (epoch : ℕ)
  | yield
deriving DecidableEq

/-- One batch of epoch `e`: the gradient-update work, then the `onBatchEnd`
callback body — increment the counter to `count + 1`, emit the progress event
with fraction `(count + 1) / total`, invoke the hook when the within-epoch
batch index is a multiple of ten and a hook was supplied, then yield. -/
def batchBlock (hasHook : Bool) (total : ℤ) (e b count : ℕ) : List Event :=
  [Event.batchCompute e b,
   Event.batchEnd e b (((count : ℚ) + 1) / (total : ℚ))]
  ++ (if hasHook = true ∧ b % 10 = 0 then [Event.batchHook b] else [])
  ++ [Event.yield]

/-- Epoch `e` of the fit loop: its `B` batches (the cumulative counter enters
the epoch at `e * B`), then validation inference over the held-out slice and
the `onEpochEnd` callback body — emit the epoch progress event, invoke the
hook unconditionally when one was supplied, then yield. -/
def epochBlock (hasHook : Bool) (total : ℤ) (B : ℕ) (vAcc : ℚ) (e : ℕ) :
    List Event :=
  ((List.range B).flatMap fun b => batchBlock hasHook total e b (e * B + b))
  ++ [Event.valCompute e, Event.epochEnd e vAcc]
  ++ (if hasHook = true then [Event.epochHook e] else [])
  ++ [Event.yield]

/-- The full event trace of `model.fit` with the `train` callbacks installed:
`epochs` epoch blocks in order.  `vAcc e` is the validation accuracy the
numeric engine produces at the end of epoch `e` (opaque to the Trainer). -/
def fitTrace (hasHook : Bool) (total : ℤ) (B epochs : ℕ) (vAcc : ℕ → ℚ) :
    List Event :=
  (List.range epochs).flatMap fun e => epochBlock hasHook total B (vAcc e) e

/-- JavaScript multiplication where `none` stands for `undefined`/`NaN`:
any operand being `undefined` poisons the result to `NaN`. -/
def jsMul : Option ℚ → Option ℚ → Option ℚ
  | some a, some b => some (a * b)
  | _, _ => none

/-- Result of a call to `train`: the event trace, the mutable `valAcc`
variable after the fit loop, the `finalValAccPercent` it reports
(`valAcc * 100`, `NaN` — modelled `none` — when `valAcc` was never
assigned), and the JavaScript return value of the function. -/
structure TrainResult where
  trace : List Event
  valAcc : Option ℚ
  finalValAccPercent : Option ℚ
  returnValue : Option ℚ
deriving DecidableEq

/-- Translated from `train` in `src/unnamed/part_000`, with the data size `N`,
the epoch count (read there from `ui.getTrainEpochs()`, whose source is not
under `src/`), the presence of the optional `onIteration` argument, and the
engine-produced per-epoch validation accuracies as parameters.  `valAcc`
starts unassigned and is overwritten by every `onEpochEnd` callback; the
function body has no return statement, so its result value is `undefined`. -/
def train (N epochs : ℕ) (hasHook : Bool) (vAcc : ℕ → ℚ) : TrainResult :=
  let B := numBatches (trainSliceSize N validationSplit) batchSize
  let total := totalNumBatches N batchSize validationSplit epochs
  let va := (List.range epochs).foldl (fun _ e => some (vAcc e)) none
  { trace := fitTrace hasHook total B epochs vAcc
  , valAcc := va
  , finalValAccPercent := jsMul va (some 100)
  , returnValue := none }

/-! ### Trace observations -/

/-- The fraction carried by a `BatchEnd` progress event. -/
def fractionOf : Event → Option ℚ
  | Event.batchEnd _ _ f => some f
  | _ => none

/-- The batch index of an `onIteration('onBatchEnd', …)` invocation. -/
def batchHookOf : Event → Option ℕ
  | Event.batchHook b => some b
  | _ => none

/-- The epoch index of an `onIteration('onEpochEnd', …)` invocation. -/
def epochHookOf : Event → Option ℕ
  | Event.epochHook e => some e
  | _ => none

/-- The epoch index of an emitted `EpochEnd` progress event. -/
def epochEndOf : Event → Option ℕ
  | Event.epochEnd e _ => some e
  | _ => none

/-- The epoch index of a validation-inference step. -/
def valComputeOf : Event → Option ℕ
  | Event.valCompute e => some e
  | _ => none

/-- The fractions carried by the `BatchEnd` progress events of a trace, in
order. -/
def batchEndFractions (tr : List Event) : List ℚ := tr.filterMap fractionOf

/-- The within-epoch batch indices at which `onIteration('onBatchEnd', …)`
was invoked, in order. -/
def batchHookIndices (tr : List Event) : List ℕ := tr.filterMap batchHookOf

/-- The epoch indices at which `onIteration('onEpochEnd', …)` was invoked,
in order. -/
def epochHookIndices (tr : List Event) : List ℕ := tr.filterMap epochHookOf

/-- The epoch indices of the emitted `EpochEnd` progress events, in order. -/
def epochEndIndices (tr : List Event) : List ℕ := tr.filterMap epochEndOf

/-- The epoch indices at which validation inference over the held-out slice
was run, in order. -/
def valComputeIndices (tr : List Event) : List ℕ := tr.filterMap valComputeOf

/-- Whether an event is a cooperative yield (`await tf.nextFrame()`). -/
def isYieldEv : Event → Bool
  | Event.yield => true
  | _ => false

/-- Whether an event is a `BatchEnd` progress event. -/
def isBatchEndEv : Event → Bool
  | Event.batchEnd _ _ _ => true
  | _ => false

/-- Whether an event is an `EpochEnd` progress event. -/
def isEpochEndEv : Event → Bool
  | Event.epochEnd _ _ => true
  | _ => false

/-- Checkpoint events: the batch-end and epoch-end progress events and the
hook invocations attached to them — the only places the loop may suspend. -/
def isCheckpoint : Event → Prop
  | Event.batchEnd _ _ _ => True
  | Event.batchHook _ => True
  | Event.epochEnd _ _ => True
  | Event.epochHook _ => True
  | _ => False

/-- Local scheduling discipline between adjacent trace steps: a batch
computation is immediately followed by its own `BatchEnd` event (so no
suspension can occur mid-batch), validation inference immediately by its
`EpochEnd` event, and a yield only ever directly follows a checkpoint
event. -/
def okPair (a next : Event) : Prop :=
  (match a with
   | Event.batchCompute e b => ∃ f, next = Event.batchEnd e b f
   | Event.valCompute e => ∃ va, next = Event.epochEnd e va
   | _ => True) ∧
  (next = Event.yield → isCheckpoint a)

/-! ### Evaluator (src/unnamed/part_000: `showPredictions` and the
`model.evaluate` call at the end of `train`)

`tf.argMax` along axis 1 takes, per example, the index of the first maximal
entry of the row; the `'accuracy'` metric of `model.evaluate` is the mean of
the per-example indicator that the arg-max of the prediction row equals the
arg-max of the one-hot label row. -/

/-- Accumulator for `argMaxIdx`: best index and value seen so far, next
index to inspect. -/
def argMaxAux (bestIdx : ℕ) (bestVal : ℚ) (i : ℕ) : List ℚ → ℕ
  | [] => bestIdx
  | x :: xs =>
    if bestVal < x then argMaxAux i x (i + 1) xs
    else argMaxAux bestIdx bestVal (i + 1) xs

/-- Index of the first maximal entry of a row (`tf.argMax` along the class
axis); `0` on the empty row. -/
def argMaxIdx : List ℚ → ℕ
  | [] => 0
  | x :: xs => argMaxAux 0 x 1 xs

/-- Result record of the Evaluator, as in the spec's data model. -/
structure EvaluationResult where
  testAccuracy : ℚ
  predictedLabels : List ℕ
  trueLabels : List ℕ
deriving DecidableEq

/-- The Evaluator: one forward pass of `model` over the test examples `xs`
with one-hot label rows `ys`; per-example arg-max of the output rows gives
`predictedLabels`, of the label rows gives `trueLabels`
(`showPredictions`), and `testAccuracy` is the mean of the per-example
match indicator (the `'accuracy'` metric of `model.evaluate`). -/
def evaluate {α : Type} (model : α → List ℚ) (xs : List α)
    (ys : List (List ℚ)) : EvaluationResult :=
  let predictions := (xs.map model).map argMaxIdx
  let labels := ys.map argMaxIdx
  { testAccuracy :=
      (((predictions.zip labels).map fun p =>
        if p.1 = p.2 then (1 : ℚ) else 0).sum) / (xs.length : ℚ)
  , predictedLabels := predictions
  , trueLabels := labels }

/-! ### Trace lemmas -/

lemma fitTrace_succ (hk : Bool) (total : ℤ) (B E : ℕ) (v : ℕ → ℚ) :
    fitTrace hk total B (E + 1) v =
      fitTrace hk total B E v ++ epochBlock hk total B (v E) E := by
  rw [fitTrace, fitTrace, List.range_succ, List.flatMap_append]
  simp

lemma flatMap_singleton_eq_map {α β : Type} (l : List α) (f : α → β) :
    (l.flatMap fun a => [f a]) = l.map f :=
  (List.map_eq_flatMap f l).symm

lemma filterMap_fraction_batchBlock (hk : Bool) (total : ℤ) (e b c : ℕ) :
    (batchBlock hk total e b c).filterMap fractionOf =
      [((c : ℚ) + 1) / (total : ℚ)] := by
  by_cases h : hk = true ∧ b % 10 = 0 <;> simp [batchBlock, fractionOf, h]

lemma filterMap_fraction_epochBlock (hk : Bool) (total : ℤ) (B : ℕ) (va : ℚ)
    (e : ℕ) :
    (epochBlock hk total B va e).filterMap fractionOf =
      (List.range B).map fun b : ℕ => (((e * B + b : ℕ) : ℚ) + 1) / (total : ℚ) := by
  rw [epochBlock, List.filterMap_append, List.filterMap_append,
    List.filterMap_append, List.filterMap_flatMap]
  simp only [filterMap_fraction_batchBlock]
  rw [flatMap_singleton_eq_map]
  by_cases h : hk = true <;> simp [fractionOf, h]

lemma batchEndFractions_fitTrace (hk : Bool) (total : ℤ) (B E : ℕ)
    (v : ℕ → ℚ) :
    batchEndFractions (fitTrace hk total B E v) =
      (List.range (E * B)).map fun k : ℕ => ((k : ℚ) + 1) / (total : ℚ) := by
  induction E with
  | zero => simp [fitTrace, batchEndFractions]
  | succ E ih =>
    rw [batchEndFractions] at ih ⊢
    rw [fitTrace_succ, List.filterMap_append, ih, filterMap_fraction_epochBlock,
      Nat.succ_mul, List.range_add, List.map_append, List.map_map]
    rfl

lemma flatMap_mod10_filter (l : List ℕ) :
    (l.flatMap fun b => if b % 10 = 0 then [b] else []) =
      l.filter fun b => b % 10 == 0 := by
  induction l with
  | nil => rfl
  | cons a l ih =>
    by_cases h : a % 10 = 0 <;> simp [List.filter_cons, h, ih]

lemma filterMap_batchHook_batchBlock (hk : Bool) (total : ℤ) (e b c : ℕ) :
    (batchBlock hk total e b c).filterMap batchHookOf =
      if hk = true ∧ b % 10 = 0 then [b] else [] := by
  by_cases h : hk = true ∧ b % 10 = 0 <;> simp [batchBlock, batchHookOf, h]

lemma filterMap_batchHook_epochBlock (total : ℤ) (B : ℕ) (va : ℚ) (e : ℕ) :
    (epochBlock true total B va e).filterMap batchHookOf =
      (List.range B).filter fun b => b % 10 == 0 := by
  rw [epochBlock, List.filterMap_append, List.filterMap_append,
    List.filterMap_append, List.filterMap_flatMap]
  simp only [filterMap_batchHook_batchBlock, true_and]
  rw [flatMap_mod10_filter]
  simp [batchHookOf]

lemma filterMap_epochHook_batchBlock (hk : Bool) (total : ℤ) (e b c : ℕ) :
    (batchBlock hk total e b c).filterMap epochHookOf = [] := by
  by_cases h : hk = true ∧ b % 10 = 0 <;> simp [batchBlock, epochHookOf, h]

lemma filterMap_epochEnd_batchBlock (hk : Bool) (total : ℤ) (e b c : ℕ) :
    (batchBlock hk total e b c).filterMap epochEndOf = [] := by
  by_cases h : hk = true ∧ b % 10 = 0 <;> simp [batchBlock, epochEndOf, h]

lemma filterMap_valCompute_batchBlock (hk : Bool) (total : ℤ) (e b c : ℕ) :
    (batchBlock hk total e b c).filterMap valComputeOf = [] := by
  by_cases h : hk = true ∧ b % 10 = 0 <;> simp [batchBlock, valComputeOf, h]

lemma filterMap_epochHook_epochBlock (total : ℤ) (B : ℕ) (va : ℚ) (e : ℕ) :
    (epochBlock true total B va e).filterMap epochHookOf = [e] := by
  rw [epochBlock, List.filterMap_append, List.filterMap_append,
    List.filterMap_append, List.filterMap_flatMap]
  simp [filterMap_epochHook_batchBlock, epochHookOf]

lemma filterMap_epochEnd_epochBlock (total : ℤ) (B : ℕ) (va : ℚ) (e : ℕ) :
    (epochBlock true total B va e).filterMap epochEndOf = [e] := by
  rw [epochBlock, List.filterMap_append, List.filterMap_append,
    List.filterMap_append, List.filterMap_flatMap]
  simp [filterMap_epochEnd_batchBlock, epochEndOf]

lemma filterMap_valCompute_epochBlock (total : ℤ) (B : ℕ) (va : ℚ) (e : ℕ) :
    (epochBlock true total B va e).filterMap valComputeOf = [e] := by
  rw [epochBlock, List.filterMap_append, List.filterMap_append,
    List.filterMap_append, List.filterMap_flatMap]
  simp [filterMap_valCompute_batchBlock, valComputeOf]

/-- A per-epoch observation that yields exactly `[e]` on epoch `e`'s block
accumulates to `[0, …, E-1]` over the whole run. -/
lemma filterMap_fitTrace_singleton (g : Event → Option ℕ) (hk : Bool)
    (total : ℤ) (B : ℕ) (v : ℕ → ℚ)
    (h : ∀ e, (epochBlock hk total B (v e) e).filterMap g = [e]) (E : ℕ) :
    (fitTrace hk total B E v).filterMap g = List.range E := by
  induction E with
  | zero => rfl
  | succ E ih =>
    rw [fitTrace_succ, List.filterMap_append, ih, h, List.range_succ]

/-- The expected total batch count is nonnegative for a valid split. -/
lemma totalNumBatches_nonneg (N b : ℕ) (vs : ℚ) (E : ℕ) (h1 : vs ≤ 1) :
    0 ≤ totalNumBatches N b vs E := by
  have hx : (0 : ℚ) ≤ (N : ℚ) * (1 - vs) :=
    mul_nonneg (Nat.cast_nonneg N) (by linarith)
  have hq : (0 : ℚ) ≤ (N : ℚ) * (1 - vs) / (b : ℚ) :=
    div_nonneg hx (Nat.cast_nonneg b)
  exact mul_nonneg (Int.ceil_nonneg hq) (Int.natCast_nonneg E)

/-- The batches actually run never outnumber the expected total: rounding the
validation slice can only shrink the training slice past the real split point
by less than half an example, which ceiling division absorbs. -/
lemma actual_le_totalNumBatches (N b : ℕ) (vs : ℚ) (E : ℕ) (hb : 0 < b)
    (h0 : 0 ≤ vs) (h1 : vs ≤ 1) :
    (E * numBatches (trainSliceSize N vs) b : ℤ) ≤ totalNumBatches N b vs E := by
  set x : ℚ := (N : ℚ) * (1 - vs) with hxdef
  set T : ℤ := ⌈x / (b : ℚ)⌉ with hTdef
  have hx : (0 : ℚ) ≤ x :=
    mul_nonneg (Nat.cast_nonneg N) (by linarith)
  have hTnn : 0 ≤ T := Int.ceil_nonneg (div_nonneg hx (Nat.cast_nonneg b))
  have hvnn : (0 : ℚ) ≤ (N : ℚ) * vs := mul_nonneg (Nat.cast_nonneg N) h0
  have hrnn : 0 ≤ round ((N : ℚ) * vs) := by
    rw [round_eq]
    exact Int.floor_nonneg.mpr (by linarith)
  have hr : (N : ℚ) * vs - 1 / 2 < ((round ((N : ℚ) * vs) : ℤ) : ℚ) := by
    rw [round_eq]
    have h := Int.sub_one_lt_floor ((N : ℚ) * vs + 1 / 2)
    linarith
  have hcast : (((round ((N : ℚ) * vs)).toNat : ℕ) : ℚ) =
      ((round ((N : ℚ) * vs) : ℤ) : ℚ) := by
    exact_mod_cast congrArg (fun z : ℤ => (z : ℚ)) (Int.toNat_of_nonneg hrnn)
  have hxe : x = (N : ℚ) - (N : ℚ) * vs := by rw [hxdef]; ring
  have hm : ((trainSliceSize N vs : ℕ) : ℚ) ≤ x + 1 / 2 := by
    rw [trainSliceSize]
    rcases le_or_lt (round ((N : ℚ) * vs)).toNat N with hle | hlt
    · rw [Nat.cast_sub hle, hcast]
      linarith
    · rw [Nat.sub_eq_zero_of_le (le_of_lt hlt)]
      push_cast
      linarith
  have hbq : (0 : ℚ) < (b : ℚ) := by exact_mod_cast hb
  have hxT : x ≤ (T : ℚ) * (b : ℚ) := by
    have hc : x / (b : ℚ) ≤ (T : ℚ) := Int.le_ceil _
    calc x = x / (b : ℚ) * (b : ℚ) := by field_simp
    _ ≤ (T : ℚ) * (b : ℚ) := mul_le_mul_of_nonneg_right hc (le_of_lt hbq)
  have hmint : (trainSliceSize N vs : ℤ) ≤ T * b := by
    have hq : ((trainSliceSize N vs : ℕ) : ℚ) < ((T * b : ℤ) : ℚ) + 1 := by
      push_cast
      linarith
    have h2 : ((trainSliceSize N vs : ℕ) : ℤ) < T * (b : ℤ) + 1 := by
      exact_mod_cast hq
    omega
  have hmnat : trainSliceSize N vs ≤ T.toNat * b := by
    have h3 : ((trainSliceSize N vs : ℕ) : ℤ) ≤ ((T.toNat * b : ℕ) : ℤ) := by
      push_cast
      rw [Int.toNat_of_nonneg hTnn]
      exact hmint
    exact_mod_cast h3
  have hB : numBatches (trainSliceSize N vs) b ≤ T.toNat := by
    rw [numBatches, Nat.div_le_iff_le_mul_add_pred hb, Nat.mul_comm b T.toNat]
    omega
  show (E : ℤ) * (numBatches (trainSliceSize N vs) b : ℤ) ≤ T * E
  have hBZ : ((numBatches (trainSliceSize N vs) b : ℕ) : ℤ) ≤ T := by
    rw [← Int.toNat_of_nonneg hTnn]
    exact_mod_cast hB
  calc (E : ℤ) * (numBatches (trainSliceSize N vs) b : ℤ)
      ≤ (E : ℤ) * T := mul_le_mul_of_nonneg_left hBZ (Int.natCast_nonneg E)
  _ = T * E := mul_comm _ _

/-! ### Theorems -/

/-- C6: for the class count `K` of this program (`numClasses = 10`, satisfying
`K ≥ 2`) and every image size `H`, `W`, the model produced by
`createConvModel` ends in a dense layer of `K` units with softmax
activation. -/
theorem createConvModel_final_dense (K : ℕ) (hK : K = numClasses)
    (H W : ℕ) :
    2 ≤ K ∧
      (createConvModel H W).getLast? =
        some (Layer.dense K Activation.softmax) := by
  subst hK
  exact ⟨by decide, rfl⟩

/-- C6 witness: instantiated at `K = 10`, `H = W = 28`. -/
theorem createConvModel_final_dense_witness :
    2 ≤ 10 ∧
      (createConvModel 28 28).getLast? =
        some (Layer.dense 10 Activation.softmax) :=
  createConvModel_final_dense 10 rfl 28 28

/-- C7: the builder produces exactly the ordered layer sequence
conv2d(32, 5×5, relu, input H×W×1); max-pool 2×2/2; conv2d(64, 5×5, relu);
max-pool 2×2/2; flatten; dense(128, relu); dropout(0.1); dense(10, softmax).
The second convolution repeats the stale `inputShape` declaration
`[H, W, 1]` (channel count 1), but sequential shape inference ignores it:
the shape that layer actually receives is the pooled feature map, whose
channel count 32 is carried forward from the first convolution. -/
theorem createConvModel_layer_sequence (H W : ℕ) :
    createConvModel H W =
      [ Layer.conv2d (some [H, W, 1]) 5 32 Activation.relu
      , Layer.maxPooling2d 2 2
      , Layer.conv2d (some [H, W, 1]) 5 64 Activation.relu
      , Layer.maxPooling2d 2 2
      , Layer.flatten
      , Layer.dense 128 Activation.relu
      , Layer.dropout (1 / 10)
      , Layer.dense 10 Activation.softmax ] ∧
    (sequentialInputShapes (createConvModel H W))[2]? =
      some (Shape.img ((H - 5 + 1 - 2) / 2 + 1) ((W - 5 + 1 - 2) / 2 + 1) 32) ∧
    Option.map Shape.channels ((sequentialInputShapes (createConvModel H W))[2]?) =
      some (outChannels (Layer.conv2d (some [H, W, 1]) 5 32 Activation.relu)) ∧
    declaredShape (Layer.conv2d (some [H, W, 1]) 5 64 Activation.relu) =
      some (Shape.img H W 1) ∧
    Shape.channels (Shape.img H W 1) = 1 :=
  ⟨rfl, rfl, rfl, rfl, rfl⟩

/-- The `valAcc` variable after the fit loop: overwritten by each epoch's
`onEpochEnd` callback, hence the last epoch's value; never assigned when no
epoch ran. -/
lemma foldl_valAcc (v : ℕ → ℚ) (E : ℕ) (hE : 1 ≤ E) :
    (List.range E).foldl (fun _ e => some (v e)) none = some (v (E - 1)) := by
  obtain ⟨E', rfl⟩ : ∃ E', E = E' + 1 := ⟨E - 1, by omega⟩
  rw [List.range_succ, List.foldl_append]
  simp

/-- C1: the Trainer's expected total batch count is exactly
`ceil(N * (1 - validationSplit) / batchSize) * epochs`; for N = 1000,
batchSize = 100, validationSplit = 0.2, epochs = 2 the computed total is 16,
and the first `BatchEnd` event of the run (batch index 0 of the first epoch)
reports fractional completion 1/16 = 0.0625. -/
theorem totalNumBatches_formula :
    (∀ (N b : ℕ) (vs : ℚ) (E : ℕ),
        totalNumBatches N b vs E = ⌈(N : ℚ) * (1 - vs) / (b : ℚ)⌉ * E) ∧
    totalNumBatches 1000 100 (2 / 10) 2 = 16 ∧
    (∀ v : ℕ → ℚ,
        (batchEndFractions
          (fitTrace true (totalNumBatches 1000 100 (2 / 10) 2)
            (numBatches (trainSliceSize 1000 (2 / 10)) 100) 2 v)).head? =
          some (1 / 16)) ∧
    (1 / 16 : ℚ) = 625 / 10000 := by
  have h16 : totalNumBatches 1000 100 (2 / 10) 2 = 16 := by
    show ⌈((1000 : ℕ) : ℚ) * (1 - 2 / 10) / ((100 : ℕ) : ℚ)⌉ * 2 = 16
    rw [show ((1000 : ℕ) : ℚ) * (1 - 2 / 10) / ((100 : ℕ) : ℚ) = ((8 : ℤ) : ℚ)
      by norm_num]
    rw [Int.ceil_intCast]
    norm_num
  have h800 : trainSliceSize 1000 (2 / 10) = 800 := by
    show 1000 - (round (((1000 : ℕ) : ℚ) * (2 / 10))).toNat = 800
    rw [show ((1000 : ℕ) : ℚ) * (2 / 10) = ((200 : ℤ) : ℚ) by norm_num,
      round_intCast]
    rfl
  refine ⟨fun N b vs E => rfl, h16, fun v => ?_, by norm_num⟩
  rw [h16, h800, show numBatches 800 100 = 8 from rfl, batchEndFractions_fitTrace]
  rw [List.head?_map, show (List.range (2 * 8)).head? = some 0 from by decide]
  show some ((((0 : ℕ) : ℚ) + 1) / ((16 : ℤ) : ℚ)) = some (1 / 16)
  norm_num

/-- C2 counterexample: `train` has no return statement, so its result value
is `undefined` (`none`), not the final epoch's validation accuracy — here a
one-epoch run whose validation accuracy is 9/10. -/
theorem train_no_return_counterexample :
    (train 1000 1 false fun _ => 9 / 10).valAcc = some (9 / 10) ∧
    (train 1000 1 false fun _ => 9 / 10).returnValue = none ∧
    (train 1000 1 false fun _ => 9 / 10).returnValue ≠ some (9 / 10) :=
  ⟨rfl, rfl, fun h => Option.noConfusion h⟩

/-- C2 amended: `train` does compute the final epoch's validation accuracy —
its `valAcc` variable ends as the last epoch's `val_acc` and the final status
report uses `valAcc * 100` — but the function's result value is `undefined`,
not that accuracy. -/
theorem train_logs_final_valAcc (N E : ℕ) (hE : 1 ≤ E) (hk : Bool)
    (v : ℕ → ℚ) :
    (train N E hk v).valAcc = some (v (E - 1)) ∧
    (train N E hk v).finalValAccPercent = some (v (E - 1) * 100) ∧
    (train N E hk v).returnValue = none := by
  have h := foldl_valAcc v E hE
  refine ⟨h, ?_, rfl⟩
  show jsMul ((List.range E).foldl (fun _ e => some (v e)) none) (some 100)
      = some (v (E - 1) * 100)
  rw [h]
  rfl

/-- C2 amended, witness: a two-epoch run with validation accuracies 1/2 then
3/4 reports 3/4 · 100 and returns `undefined`. -/
theorem train_logs_final_valAcc_witness :
    1 ≤ 2 ∧
      ((train 1000 2 false fun e => if e = 0 then 1 / 2 else 3 / 4).valAcc =
          some (3 / 4) ∧
        (train 1000 2 false fun e =>
            if e = 0 then 1 / 2 else 3 / 4).finalValAccPercent =
          some (3 / 4 * 100) ∧
        (train 1000 2 false fun e =>
            if e = 0 then 1 / 2 else 3 / 4).returnValue = none) :=
  ⟨by decide,
    train_logs_final_valAcc 1000 2 (by decide) false
      (fun e => if e = 0 then 1 / 2 else 3 / 4)⟩

/-- C10: with an epoch count of 0 the run completes with `valAcc` never
assigned, and the reported percentage `valAcc * 100` is `NaN` (`none`) rather
than an error; with at least one epoch the reported percentage is the last
epoch's validation accuracy times 100. -/
theorem zero_epochs_nan (N : ℕ) (hk : Bool) (v : ℕ → ℚ) :
    (train N 0 hk v).valAcc = none ∧
    (train N 0 hk v).finalValAccPercent = none ∧
    (∀ E, 1 ≤ E →
      (train N E hk v).finalValAccPercent = some (v (E - 1) * 100)) := by
  refine ⟨rfl, rfl, fun E hE => ?_⟩
  show jsMul ((List.range E).foldl (fun _ e => some (v e)) none) (some 100)
      = some (v (E - 1) * 100)
  rw [foldl_valAcc v E hE]
  rfl

/-- C10 witness: at N = 500 with the constant accuracy 1/2, the zero-epoch
run reports `NaN` and the one-epoch run reports 1/2 · 100. -/
theorem zero_epochs_nan_witness :
    (train 500 0 true fun _ => 1 / 2).finalValAccPercent = none ∧
    (1 ≤ 1 ∧
      (train 500 1 true fun _ => 1 / 2).finalValAccPercent =
        some (1 / 2 * 100)) :=
  ⟨(zero_epochs_nan 500 true fun _ => 1 / 2).2.1,
    by decide, (zero_epochs_nan 500 true fun _ => 1 / 2).2.2 1 (by decide)⟩

/-- C3: when a caller-supplied `onIteration` hook is given, the
`'onBatchEnd'` hook invocations of a run are, per epoch, exactly the batches
whose 0-indexed within-epoch batch index is a multiple of ten (0, 10, 20, …),
in order, and no others. -/
theorem batchHook_every_tenth (total : ℤ) (B E : ℕ) (v : ℕ → ℚ) :
    batchHookIndices (fitTrace true total B E v) =
      (List.range E).flatMap fun _ =>
        (List.range B).filter fun b => b % 10 == 0 := by
  induction E with
  | zero => rfl
  | succ E ih =>
    rw [batchHookIndices, fitTrace_succ, List.filterMap_append,
      show (fitTrace true total B E v).filterMap batchHookOf
          = batchHookIndices (fitTrace true total B E v) from rfl,
      ih, filterMap_batchHook_epochBlock, List.range_succ, List.flatMap_append]
    simp

/-- C4: at the end of every epoch of a run (hook supplied), the Trainer runs
validation inference over the held-out slice, emits an `EpochEnd` progress
event, and invokes `onIteration('onEpochEnd', epochIndex, logs)` — each
exactly once per epoch, at epochs `0, …, E-1` in order. -/
theorem epoch_end_once_per_epoch (total : ℤ) (B E : ℕ) (v : ℕ → ℚ) :
    valComputeIndices (fitTrace true total B E v) = List.range E ∧
    epochEndIndices (fitTrace true total B E v) = List.range E ∧
    epochHookIndices (fitTrace true total B E v) = List.range E :=
  ⟨filterMap_fitTrace_singleton valComputeOf true total B v
      (fun e => filterMap_valCompute_epochBlock total B (v e) e) E,
   filterMap_fitTrace_singleton epochEndOf true total B v
      (fun e => filterMap_epochEnd_epochBlock total B (v e) e) E,
   filterMap_fitTrace_singleton epochHookOf true total B v
      (fun e => filterMap_epochHook_epochBlock total B (v e) e) E⟩

/-- C5: across the `BatchEnd` events of a run, the reported fractional
completion (cumulative batch count over the precomputed total) is
monotonically non-decreasing, and it equals 1.0 only at the final batch of
the run. -/
theorem fraction_monotone (N b : ℕ) (vs : ℚ) (E : ℕ) (hk : Bool) (v : ℕ → ℚ)
    (hb : 0 < b) (h0 : 0 ≤ vs) (h1 : vs ≤ 1) :
    List.Chain' (· ≤ ·)
      (batchEndFractions (fitTrace hk (totalNumBatches N b vs E)
        (numBatches (trainSliceSize N vs) b) E v)) ∧
    ∀ i : ℕ,
      (batchEndFractions (fitTrace hk (totalNumBatches N b vs E)
        (numBatches (trainSliceSize N vs) b) E v))[i]? = some 1 →
      i + 1 =
        (batchEndFractions (fitTrace hk (totalNumBatches N b vs E)
          (numBatches (trainSliceSize N vs) b) E v)).length := by
  have htnn : 0 ≤ totalNumBatches N b vs E := totalNumBatches_nonneg N b vs E h1
  have hle := actual_le_totalNumBatches N b vs E hb h0 h1
  rw [batchEndFractions_fitTrace]
  set total : ℤ := totalNumBatches N b vs E with htot
  set B : ℕ := numBatches (trainSliceSize N vs) b with hBdef
  set n : ℕ := E * B with hn
  have hleZ : (n : ℤ) ≤ total := by
    rw [hn]
    push_cast
    exact hle
  have htq : (0 : ℚ) ≤ (total : ℚ) := by exact_mod_cast htnn
  constructor
  · rw [List.chain'_iff_get]
    intro i hi
    simp only [List.get_eq_getElem, List.getElem_map, List.getElem_range]
    rcases eq_or_lt_of_le htq with hz | hpos
    · rw [← hz]
      simp
    · rw [div_le_div_iff_of_pos_right hpos]
      push_cast
      linarith
  · intro i hi
    rw [List.getElem?_eq_some_iff] at hi
    obtain ⟨hilt, hval⟩ := hi
    simp only [List.getElem_map, List.getElem_range] at hval
    rw [List.length_map, List.length_range] at hilt ⊢
    have htne : (total : ℚ) ≠ 0 := by
      intro hz
      rw [hz, div_zero] at hval
      norm_num at hval
    have hiq : ((i : ℕ) : ℚ) + 1 = (total : ℚ) := by
      field_simp at hval
      exact hval
    have hiZ : ((i : ℕ) : ℤ) + 1 = total := by exact_mod_cast hiq
    omega

/-- C5 witness: the code's own configuration (batchSize 320, split 0.15) on
N = 1000 over two epochs. -/
theorem fraction_monotone_witness :
    ((0 : ℕ) < 320 ∧ (0 : ℚ) ≤ 15 / 100 ∧ (15 / 100 : ℚ) ≤ 1) ∧
    (List.Chain' (· ≤ ·)
      (batchEndFractions (fitTrace true (totalNumBatches 1000 320 (15 / 100) 2)
        (numBatches (trainSliceSize 1000 (15 / 100)) 320) 2 fun _ => 0)) ∧
    ∀ i : ℕ,
      (batchEndFractions (fitTrace true (totalNumBatches 1000 320 (15 / 100) 2)
        (numBatches (trainSliceSize 1000 (15 / 100)) 320) 2 fun _ => 0))[i]? =
        some 1 →
      i + 1 =
        (batchEndFractions (fitTrace true (totalNumBatches 1000 320 (15 / 100) 2)
          (numBatches (trainSliceSize 1000 (15 / 100)) 320) 2
          fun _ => 0)).length) :=
  ⟨⟨by norm_num, by norm_num, by norm_num⟩,
    fraction_monotone 1000 320 (15 / 100) 2 true (fun _ => 0)
      (by norm_num) (by norm_num) (by norm_num)⟩

lemma argMaxAux_lt (n : ℕ) (xs : List ℚ) :
    ∀ (bestIdx i : ℕ) (bestVal : ℚ), bestIdx < n → i + xs.length ≤ n →
      argMaxAux bestIdx bestVal i xs < n := by
  induction xs with
  | nil =>
    intro bestIdx i bestVal hb _
    simpa [argMaxAux] using hb
  | cons x xs ih =>
    intro bestIdx i bestVal hb hi
    simp only [List.length_cons] at hi
    rw [argMaxAux]
    split
    · exact ih i (i + 1) x (by omega) (by omega)
    · exact ih bestIdx (i + 1) bestVal hb (by omega)

lemma argMaxIdx_lt (l : List ℚ) (h : l ≠ []) : argMaxIdx l < l.length := by
  cases l with
  | nil => exact absurd rfl h
  | cons x xs =>
    rw [argMaxIdx, List.length_cons]
    exact argMaxAux_lt (xs.length + 1) xs 0 1 x (by omega) (by omega)

lemma sum_indicator_countP (l : List (ℕ × ℕ)) :
    ((l.map fun p => if p.1 = p.2 then (1 : ℚ) else 0).sum) =
      ((l.countP fun p => p.1 == p.2 : ℕ) : ℚ) := by
  induction l with
  | nil => simp
  | cons a l ih =>
    by_cases h : a.1 = a.2
    · simp [List.countP_cons, h, ih]
      ring
    · simp [List.countP_cons, h, ih]

/-- C8: the Evaluator returns prediction and truth label arrays of equal
length, each entry a per-example arg-max in `[0, K)`, and a test accuracy
equal to the fraction of indices where they agree. -/
theorem evaluate_spec {α : Type} (model : α → List ℚ) (xs : List α)
    (ys : List (List ℚ)) (K : ℕ) (hK : 0 < K)
    (hlen : xs.length = ys.length)
    (hm : ∀ x, (model x).length = K)
    (hy : ∀ r ∈ ys, r.length = K) :
    (evaluate model xs ys).predictedLabels.length =
      (evaluate model xs ys).trueLabels.length ∧
    (∀ p ∈ (evaluate model xs ys).predictedLabels, p < K) ∧
    (∀ t ∈ (evaluate model xs ys).trueLabels, t < K) ∧
    (evaluate model xs ys).testAccuracy =
      ((((evaluate model xs ys).predictedLabels.zip
          (evaluate model xs ys).trueLabels).countP
        fun p => p.1 == p.2 : ℕ) : ℚ) / (xs.length : ℚ) := by
  refine ⟨?_, ?_, ?_, ?_⟩
  · show ((xs.map model).map argMaxIdx).length = (ys.map argMaxIdx).length
    simp [hlen]
  · intro p hp
    have hp' : p ∈ (xs.map model).map argMaxIdx := hp
    simp only [List.map_map, List.mem_map, Function.comp] at hp'
    obtain ⟨x, _, rfl⟩ := hp'
    have hne : model x ≠ [] := by
      intro hnil
      have hx := hm x
      rw [hnil] at hx
      simp at hx
      omega
    have := argMaxIdx_lt (model x) hne
    rwa [hm x] at this
  · intro t ht
    have ht' : t ∈ ys.map argMaxIdx := ht
    simp only [List.mem_map] at ht'
    obtain ⟨r, hr, rfl⟩ := ht'
    have hne : r ≠ [] := by
      intro hnil
      rw [hnil] at hr
      have := hy [] hr
      simp at this
      omega
    have := argMaxIdx_lt r hne
    rwa [hy r hr] at this
  · show ((((xs.map model).map argMaxIdx).zip (ys.map argMaxIdx)).map
        fun p => if p.1 = p.2 then (1 : ℚ) else 0).sum / (xs.length : ℚ) = _
    rw [sum_indicator_countP]
    rfl

/-- C8 witness: two examples, two classes; the constant model predicts class
0 on both, the labels are classes 1 and 0, so the accuracy is 1/2. -/
theorem evaluate_spec_witness :
    (0 : ℕ) < 2 ∧
    ((evaluate (fun _ : ℕ => [1 / 2, 1 / 4]) [0, 1]
        [[0, 1], [1, 0]]).predictedLabels.length =
      (evaluate (fun _ : ℕ => [1 / 2, 1 / 4]) [0, 1]
        [[0, 1], [1, 0]]).trueLabels.length ∧
    (∀ p ∈ (evaluate (fun _ : ℕ => [1 / 2, 1 / 4]) [0, 1]
        [[0, 1], [1, 0]]).predictedLabels, p < 2) ∧
    (∀ t ∈ (evaluate (fun _ : ℕ => [1 / 2, 1 / 4]) [0, 1]
        [[0, 1], [1, 0]]).trueLabels, t < 2) ∧
    (evaluate (fun _ : ℕ => [1 / 2, 1 / 4]) [0, 1]
        [[0, 1], [1, 0]]).testAccuracy =
      ((((evaluate (fun _ : ℕ => [1 / 2, 1 / 4]) [0, 1]
            [[0, 1], [1, 0]]).predictedLabels.zip
          (evaluate (fun _ : ℕ => [1 / 2, 1 / 4]) [0, 1]
            [[0, 1], [1, 0]]).trueLabels).countP
        fun p => p.1 == p.2 : ℕ) : ℚ) /
        ((([0, 1] : List ℕ).length : ℕ) : ℚ)) :=
  ⟨by norm_num,
    evaluate_spec (fun _ : ℕ => [1 / 2, 1 / 4]) [0, 1] [[0, 1], [1, 0]] 2
      (by norm_num) rfl (fun _ => rfl)
      (by
        intro r hr
        simp only [List.mem_cons, List.not_mem_nil, or_false] at hr
        rcases hr with rfl | rfl <;> rfl)⟩

lemma okPair_yield_left {next : Event} (h : next ≠ Event.yield) :
    okPair Event.yield next :=
  ⟨True.intro, fun hy => absurd hy h⟩

lemma chain'_batchBlock (hk : Bool) (total : ℤ) (e b c : ℕ) :
    List.Chain' okPair (batchBlock hk total e b c) := by
  by_cases h : hk = true ∧ b % 10 = 0
  · rw [batchBlock, if_pos h]
    show List.Chain' okPair
      [Event.batchCompute e b,
       Event.batchEnd e b (((c : ℚ) + 1) / (total : ℚ)),
       Event.batchHook b, Event.yield]
    refine List.chain'_cons.mpr
      ⟨⟨⟨_, rfl⟩, fun hy => Event.noConfusion hy⟩, ?_⟩
    refine List.chain'_cons.mpr
      ⟨⟨True.intro, fun hy => Event.noConfusion hy⟩, ?_⟩
    exact List.chain'_cons.mpr
      ⟨⟨True.intro, fun _ => True.intro⟩, List.chain'_singleton _⟩
  · rw [batchBlock, if_neg h]
    show List.Chain' okPair
      [Event.batchCompute e b,
       Event.batchEnd e b (((c : ℚ) + 1) / (total : ℚ)), Event.yield]
    refine List.chain'_cons.mpr
      ⟨⟨⟨_, rfl⟩, fun hy => Event.noConfusion hy⟩, ?_⟩
    exact List.chain'_cons.mpr
      ⟨⟨True.intro, fun _ => True.intro⟩, List.chain'_singleton _⟩

lemma head?_batchBlock (hk : Bool) (total : ℤ) (e b c : ℕ) :
    (batchBlock hk total e b c).head? = some (Event.batchCompute e b) := rfl

lemma getLast?_batchBlock (hk : Bool) (total : ℤ) (e b c : ℕ) :
    (batchBlock hk total e b c).getLast? = some Event.yield := by
  rw [batchBlock, List.getLast?_append]
  rfl

lemma getLast?_epochBlock (hk : Bool) (total : ℤ) (B : ℕ) (va : ℚ) (e : ℕ) :
    (epochBlock hk total B va e).getLast? = some Event.yield := by
  rw [epochBlock, List.getLast?_append]
  rfl

lemma chain'_last_flatMapBatches (hk : Bool) (total : ℤ) (e : ℕ) (c : ℕ → ℕ)
    (B : ℕ) :
    List.Chain' okPair
      ((List.range B).flatMap fun b => batchBlock hk total e b (c b)) ∧
    (((List.range B).flatMap fun b => batchBlock hk total e b (c b)) = [] ∨
      ((List.range B).flatMap fun b =>
        batchBlock hk total e b (c b)).getLast? = some Event.yield) := by
  induction B with
  | zero => exact ⟨List.chain'_nil, Or.inl rfl⟩
  | succ B ih =>
    have hsplit :
        ((List.range (B + 1)).flatMap fun b => batchBlock hk total e b (c b)) =
          ((List.range B).flatMap fun b => batchBlock hk total e b (c b)) ++
            batchBlock hk total e B (c B) := by
      rw [List.range_succ, List.flatMap_append]
      simp
    rw [hsplit]
    constructor
    · rw [List.chain'_append]
      refine ⟨ih.1, chain'_batchBlock hk total e B (c B), ?_⟩
      intro x hx y hy
      rcases ih.2 with hnil | hlast
      · rw [hnil] at hx
        simp at hx
      · rw [hlast] at hx
        simp only [Option.mem_def, Option.some_inj] at hx
        subst hx
        rw [head?_batchBlock] at hy
        simp only [Option.mem_def, Option.some_inj] at hy
        subst hy
        exact okPair_yield_left (fun hcon => Event.noConfusion hcon)
    · right
      rw [List.getLast?_append, getLast?_batchBlock]
      rfl

lemma chain'_epochBlock (hk : Bool) (total : ℤ) (B : ℕ) (va : ℚ) (e : ℕ) :
    List.Chain' okPair (epochBlock hk total B va e) := by
  have hFM := chain'_last_flatMapBatches hk total e (fun b => e * B + b) B
  have h1 : List.Chain' okPair
      (((List.range B).flatMap fun b => batchBlock hk total e b (e * B + b)) ++
        [Event.valCompute e, Event.epochEnd e va]) := by
    rw [List.chain'_append]
    refine ⟨hFM.1, ?_, ?_⟩
    · exact List.chain'_cons.mpr
        ⟨⟨⟨va, rfl⟩, fun hy => Event.noConfusion hy⟩, List.chain'_singleton _⟩
    · intro x hx y hy
      rcases hFM.2 with hnil | hlast
      · rw [hnil] at hx
        simp at hx
      · rw [hlast] at hx
        simp only [Option.mem_def, Option.some_inj] at hx
        subst hx
        simp only [List.head?_cons, Option.mem_def, Option.some_inj] at hy
        subst hy
        exact okPair_yield_left (fun hcon => Event.noConfusion hcon)
  have h2 : (((List.range B).flatMap fun b =>
        batchBlock hk total e b (e * B + b)) ++
        [Event.valCompute e, Event.epochEnd e va]).getLast? =
      some (Event.epochEnd e va) := by
    rw [List.getLast?_append]
    rfl
  by_cases h : hk = true
  · rw [epochBlock, if_pos h]
    refine List.chain'_append.mpr ⟨?_, List.chain'_singleton _, ?_⟩
    · refine List.chain'_append.mpr ⟨h1, List.chain'_singleton _, ?_⟩
      intro x hx y hy
      rw [h2] at hx
      simp only [Option.mem_def, Option.some_inj] at hx
      subst hx
      simp only [List.head?_cons, Option.mem_def, Option.some_inj] at hy
      subst hy
      exact ⟨True.intro, fun hy' => Event.noConfusion hy'⟩
    · intro x hx y hy
      rw [List.getLast?_append] at hx
      simp only [List.getLast?_singleton, Option.or_some, Option.mem_def,
        Option.some_inj] at hx
      subst hx
      simp only [List.head?_cons, Option.mem_def, Option.some_inj] at hy
      subst hy
      exact ⟨True.intro, fun _ => True.intro⟩
  · rw [epochBlock, if_neg h, List.append_nil]
    refine List.chain'_append.mpr ⟨h1, List.chain'_singleton _, ?_⟩
    intro x hx y hy
    rw [h2] at hx
    simp only [Option.mem_def, Option.some_inj] at hx
    subst hx
    simp only [List.head?_cons, Option.mem_def, Option.some_inj] at hy
    subst hy
    exact ⟨True.intro, fun _ => True.intro⟩

lemma getLast?_fitTrace (hk : Bool) (total : ℤ) (B E : ℕ) (v : ℕ → ℚ) :
    fitTrace hk total B E v = [] ∨
      (fitTrace hk total B E v).getLast? = some Event.yield := by
  cases E with
  | zero => exact Or.inl rfl
  | succ E =>
    right
    rw [fitTrace_succ, List.getLast?_append, getLast?_epochBlock]
    rfl

lemma head?_epochBlock (hk : Bool) (total : ℤ) (B : ℕ) (va : ℚ) (e : ℕ) :
    ∃ a, (epochBlock hk total B va e).head? = some a ∧ a ≠ Event.yield := by
  cases B with
  | zero =>
    exact ⟨Event.valCompute e, rfl, fun hcon => Event.noConfusion hcon⟩
  | succ B' =>
    refine ⟨Event.batchCompute e 0, ?_, fun hcon => Event.noConfusion hcon⟩
    rw [epochBlock, List.range_succ_eq_map, List.flatMap_cons]
    rfl

lemma chain'_fitTrace (hk : Bool) (total : ℤ) (B E : ℕ) (v : ℕ → ℚ) :
    List.Chain' okPair (fitTrace hk total B E v) := by
  induction E with
  | zero => exact List.chain'_nil
  | succ E ih =>
    rw [fitTrace_succ]
    refine List.chain'_append.mpr ⟨ih, chain'_epochBlock hk total B (v E) E, ?_⟩
    intro x hx y hy
    rcases getLast?_fitTrace hk total B E v with hnil | hlast
    · rw [hnil] at hx
      simp at hx
    · rw [hlast] at hx
      simp only [Option.mem_def, Option.some_inj] at hx
      subst hx
      obtain ⟨a, ha, hane⟩ := head?_epochBlock hk total B (v E) E
      rw [ha] at hy
      simp only [Option.mem_def, Option.some_inj] at hy
      subst hy
      exact okPair_yield_left hane

lemma head?_fitTrace_ne_yield (hk : Bool) (total : ℤ) (B E : ℕ) (v : ℕ → ℚ) :
    ∀ a, (fitTrace hk total B E v).head? = some a → a ≠ Event.yield := by
  cases E with
  | zero =>
    intro a ha
    exact Option.noConfusion ha
  | succ E =>
    intro a ha
    rw [fitTrace, List.range_succ_eq_map, List.flatMap_cons,
      List.head?_append] at ha
    obtain ⟨b, hb, hbne⟩ := head?_epochBlock hk total B (v 0) 0
    rw [hb] at ha
    simp only [Option.or_some, Option.some_inj] at ha
    rw [← ha]
    exact hbne

lemma countP_flatMap_const (p : Event → Bool) (f : ℕ → List Event) (c : ℕ)
    (h : ∀ b, (f b).countP p = c) : ∀ B, ((List.range B).flatMap f).countP p = B * c := by
  intro B
  induction B with
  | zero => simp
  | succ B ih =>
    rw [List.range_succ, List.flatMap_append, List.countP_append, ih]
    have hB : (List.flatMap [B] f).countP p = c := by
      rw [List.flatMap_cons, List.flatMap_nil, List.append_nil]
      exact h B
    rw [hB, Nat.succ_mul]

lemma countP_yield_batchBlock (hk : Bool) (total : ℤ) (e b c : ℕ) :
    (batchBlock hk total e b c).countP isYieldEv = 1 := by
  by_cases h : hk = true ∧ b % 10 = 0 <;>
    simp [batchBlock, h, isYieldEv, List.countP_cons, List.countP_append]

lemma countP_batchEnd_batchBlock (hk : Bool) (total : ℤ) (e b c : ℕ) :
    (batchBlock hk total e b c).countP isBatchEndEv = 1 := by
  by_cases h : hk = true ∧ b % 10 = 0 <;>
    simp [batchBlock, h, isBatchEndEv, List.countP_cons, List.countP_append]

lemma countP_epochEnd_batchBlock (hk : Bool) (total : ℤ) (e b c : ℕ) :
    (batchBlock hk total e b c).countP isEpochEndEv = 0 := by
  by_cases h : hk = true ∧ b % 10 = 0 <;>
    simp [batchBlock, h, isEpochEndEv, List.countP_cons, List.countP_append]

lemma countP_yield_epochBlock (hk : Bool) (total : ℤ) (B : ℕ) (va : ℚ) (e : ℕ) :
    (epochBlock hk total B va e).countP isYieldEv = B + 1 := by
  rw [epochBlock, List.countP_append, List.countP_append, List.countP_append,
    countP_flatMap_const isYieldEv _ 1
      (fun b => countP_yield_batchBlock hk total e b (e * B + b))]
  by_cases h : hk = true <;>
    simp [h, isYieldEv, List.countP_cons]

lemma countP_batchEnd_epochBlock (hk : Bool) (total : ℤ) (B : ℕ) (va : ℚ)
    (e : ℕ) :
    (epochBlock hk total B va e).countP isBatchEndEv = B := by
  rw [epochBlock, List.countP_append, List.countP_append, List.countP_append,
    countP_flatMap_const isBatchEndEv _ 1
      (fun b => countP_batchEnd_batchBlock hk total e b (e * B + b))]
  by_cases h : hk = true <;>
    simp [h, isBatchEndEv, List.countP_cons]

lemma countP_epochEnd_epochBlock (hk : Bool) (total : ℤ) (B : ℕ) (va : ℚ)
    (e : ℕ) :
    (epochBlock hk total B va e).countP isEpochEndEv = 1 := by
  rw [epochBlock, List.countP_append, List.countP_append, List.countP_append,
    countP_flatMap_const isEpochEndEv _ 0
      (fun b => countP_epochEnd_batchBlock hk total e b (e * B + b))]
  by_cases h : hk = true <;>
    simp [h, isEpochEndEv, List.countP_cons]

/-- C9: during a run, control is yielded to the host scheduler exactly at the
batch-end and epoch-end checkpoints — each yield directly follows a
checkpoint event (progress event or hook invocation), the trace never begins
with a yield, there is exactly one yield per `BatchEnd`/`EpochEnd`
checkpoint, and nothing (in particular no yield) separates a batch
computation from its `BatchEnd` event or validation inference from its
`EpochEnd` event. -/
theorem yield_at_checkpoints (hk : Bool) (total : ℤ) (B E : ℕ) (v : ℕ → ℚ) :
    List.Chain' okPair (fitTrace hk total B E v) ∧
    (∀ a, (fitTrace hk total B E v).head? = some a → a ≠ Event.yield) ∧
    (fitTrace hk total B E v).countP isYieldEv =
      (fitTrace hk total B E v).countP isBatchEndEv +
        (fitTrace hk total B E v).countP isEpochEndEv := by
  refine ⟨chain'_fitTrace hk total B E v, head?_fitTrace_ne_yield hk total B E v, ?_⟩
  rw [show fitTrace hk total B E v =
      (List.range E).flatMap (fun e => epochBlock hk total B (v e) e) from rfl]
  rw [countP_flatMap_const isYieldEv _ (B + 1)
      (fun e => countP_yield_epochBlock hk total B (v e) e),
    countP_flatMap_const isBatchEndEv _ B
      (fun e => countP_batchEnd_epochBlock hk total B (v e) e),
    countP_flatMap_const isEpochEndEv _ 1
      (fun e => countP_epochEnd_epochBlock hk total B (v e) e)]
  ring

end TfjsMnist
